import Mathlib

/-!
Shallow embedding of the `hashmem` context-indexed frequency store
(`src/main.rs`).  The data model (`Token`, `TokenEntry`, `TokenHits`),
the pre-hash byte encoding of token sequences (bincode standard
configuration: varint length prefix, varint enum discriminant, UTF-8
char payload, varint `u64` payload), the store operations
(`note_next_token`, `get_next_candidates`, `note_text`,
`predict_token`, the backoff prediction loop and `generate`), and a
byte-indexed variant of the sliding-window loops that models Rust
string slicing panics on non-boundary byte indices.

The redb database is modelled as a partial map from storage key to
`TokenHits` (`none` = key never written).  The sha256 hex digest
applied to the encoded byte sequence is modelled as an injective
function of its input, i.e. the storage key of a context is its
encoded byte sequence itself: the specification treats the digest as
deterministic and collision-free, so the digest step is behaviourally
the identity on key identity.

Counts are `u64` in the source; they are modelled as `Nat` (a count
only grows by one per observation, and wrap-around at `2 ^ 64`
observations is out of scope for every claim considered here).
-/

namespace HashMem

/-- Rust enum `Token`: a single character or a numeric literal. -/
inductive Token where
  | C (c : Char)
  | Num (n : Nat)
  deriving DecidableEq

/-- Rust struct `TokenEntry`: one successor record, a symbol and its count. -/
structure TokenEntry where
  value : Token
  count : Nat
  deriving DecidableEq

/-- Rust struct `TokenHits`: the per-context frequency table. -/
structure TokenHits where
  entries : List TokenEntry
  deriving DecidableEq

/-- Little-endian base-256 digits, exactly `k` bytes. -/
def toLE : Nat → Nat → List Nat
  | 0, _ => []
  | k + 1, n => n % 256 :: toLE k (n / 256)

/-- Read a little-endian base-256 byte list back to a number. -/
def fromLE : List Nat → Nat
  | [] => 0
  | b :: bs => b + 256 * fromLE bs

/-- bincode standard-configuration varint encoding of an unsigned integer
(values below `2 ^ 64`; the `u64` range of the source). -/
def encodeVarint (n : Nat) : List Nat :=
  if n < 251 then [n]
  else if n < 65536 then 251 :: toLE 2 n
  else if n < 4294967296 then 252 :: toLE 4 n
  else 253 :: toLE 8 n

/-- Read exactly `k` bytes off the front of a byte list. -/
def readN : Nat → List Nat → Option (List Nat × List Nat)
  | 0, l => some ([], l)
  | _ + 1, [] => none
  | k + 1, b :: l => (readN k l).map (fun p => (b :: p.1, p.2))

/-- Decoder for `encodeVarint`. -/
def decodeVarint : List Nat → Option (Nat × List Nat)
  | [] => none
  | b :: l =>
    if b < 251 then some (b, l)
    else if b = 251 then (readN 2 l).map (fun p => (fromLE p.1, p.2))
    else if b = 252 then (readN 4 l).map (fun p => (fromLE p.1, p.2))
    else if b = 253 then (readN 8 l).map (fun p => (fromLE p.1, p.2))
    else none

/-- UTF-8 encoding of a character, as bincode emits for a Rust `char`. -/
def encodeChar (c : Char) : List Nat :=
  let v := c.toNat
  if v < 128 then [v]
  else if v < 2048 then [192 + v / 64, 128 + v % 64]
  else if v < 65536 then [224 + v / 4096, 128 + v / 64 % 64, 128 + v % 64]
  else [240 + v / 262144, 128 + v / 4096 % 64, 128 + v / 64 % 64, 128 + v % 64]

/-- Decoder for `encodeChar`, producing the Unicode scalar value. -/
def decodeCharNat : List Nat → Option (Nat × List Nat)
  | [] => none
  | b :: l =>
    if b < 128 then some (b, l)
    else if b < 192 then none
    else if b < 224 then
      match l with
      | b1 :: l1 => some ((b - 192) * 64 + (b1 - 128), l1)
      | [] => none
    else if b < 240 then
      match l with
      | b1 :: b2 :: l2 => some ((b - 224) * 4096 + (b1 - 128) * 64 + (b2 - 128), l2)
      | _ => none
    else
      match l with
      | b1 :: b2 :: b3 :: l3 =>
        some ((b - 240) * 262144 + (b1 - 128) * 4096 + (b2 - 128) * 64 + (b3 - 128), l3)
      | _ => none

/-- bincode encoding of one `Token`: varint variant discriminant, then the
payload (`C` carries a UTF-8 char, `Num` carries a varint `u64`). -/
def encodeToken : Token → List Nat
  | Token.C c => 0 :: encodeChar c
  | Token.Num n => 1 :: encodeVarint n

/-- bincode encoding of a token slice: varint element count, then the
concatenated element encodings.  This is the byte string the source
feeds to the digest in `hash_tokens`. -/
def encodeTokens (ts : List Token) : List Nat :=
  encodeVarint ts.length ++ (ts.map encodeToken).flatten

/-- Well-formedness of a token: a `Num` payload fits in a `u64` (the Rust
type of the payload).  `C` tokens are always well-formed. -/
def Token.wf : Token → Bool
  | Token.C _ => true
  | Token.Num n => n < 18446744073709551616

/-- Decoder for `encodeToken`. -/
def decodeToken (l : List Nat) : Option (Token × List Nat) :=
  match decodeVarint l with
  | some (0, l1) => (decodeCharNat l1).map (fun p => (Token.C (Char.ofNat p.1), p.2))
  | some (1, l1) => (decodeVarint l1).map (fun p => (Token.Num p.1, p.2))
  | _ => none

/-- Decode exactly `k` consecutive token encodings. -/
def decodeTokensN : Nat → List Nat → Option (List Token × List Nat)
  | 0, l => some ([], l)
  | k + 1, l =>
    match decodeToken l with
    | some (t, l1) => (decodeTokensN k l1).map (fun p => (t :: p.1, p.2))
    | none => none

/-- Decoder for `encodeTokens`. -/
def decodeTokens (l : List Nat) : Option (List Token) :=
  match decodeVarint l with
  | some (k, l1) => (decodeTokensN k l1).map (fun p => p.1)
  | none => none

theorem toLE_length (k n : Nat) : (toLE k n).length = k := by
  induction k generalizing n with
  | zero => rfl
  | succ k ih => simp [toLE, ih]

theorem fromLE_toLE (k n : Nat) (h : n < 256 ^ k) : fromLE (toLE k n) = n := by
  induction k generalizing n with
  | zero =>
    simp [toLE, fromLE]
    omega
  | succ k ih =>
    have hpow : 256 ^ (k + 1) = 256 ^ k * 256 := by ring
    simp only [toLE, fromLE]
    rw [ih (n / 256) (by omega)]
    omega

theorem readN_append (k : Nat) (xs r : List Nat) (h : xs.length = k) :
    readN k (xs ++ r) = some (xs, r) := by
  induction k generalizing xs with
  | zero =>
    have : xs = [] := List.eq_nil_of_length_eq_zero h
    simp [this, readN]
  | succ k ih =>
    match xs with
    | [] => simp at h
    | b :: xs =>
      simp only [List.length_cons, Nat.succ.injEq] at h
      simp [readN, ih xs h]

theorem decodeVarint_encode (n : Nat) (r : List Nat) (h : n < 18446744073709551616) :
    decodeVarint (encodeVarint n ++ r) = some (n, r) := by
  have e2 : (256 : Nat) ^ 2 = 65536 := by norm_num
  have e4 : (256 : Nat) ^ 4 = 4294967296 := by norm_num
  have e8 : (256 : Nat) ^ 8 = 18446744073709551616 := by norm_num
  by_cases h1 : n < 251
  · simp [encodeVarint, decodeVarint, h1]
  · by_cases h2 : n < 65536
    · have hl : (toLE 2 n).length = 2 := toLE_length 2 n
      simp [encodeVarint, decodeVarint, h1, h2, readN_append 2 (toLE 2 n) r hl,
        fromLE_toLE 2 n (by omega)]
    · by_cases h3 : n < 4294967296
      · have hl : (toLE 4 n).length = 4 := toLE_length 4 n
        simp [encodeVarint, decodeVarint, h1, h2, h3, readN_append 4 (toLE 4 n) r hl,
          fromLE_toLE 4 n (by omega)]
      · have hl : (toLE 8 n).length = 8 := toLE_length 8 n
        simp [encodeVarint, decodeVarint, h1, h2, h3, readN_append 8 (toLE 8 n) r hl,
          fromLE_toLE 8 n (by omega)]

set_option maxRecDepth 4000 in
theorem char_toNat_lt (c : Char) : c.toNat < 1114112 := by
  rcases c.valid with h | ⟨_, h⟩
  · exact Nat.lt_trans h (by norm_num)
  · exact h

set_option maxRecDepth 4000 in
theorem decodeCharNat_encode (c : Char) (r : List Nat) :
    decodeCharNat (encodeChar c ++ r) = some (c.toNat, r) := by
  have hv := char_toNat_lt c
  set v := c.toNat with hvdef
  by_cases h1 : v < 128
  · simp [encodeChar, decodeCharNat, ← hvdef, h1]
  · by_cases h2 : v < 2048
    · have hd : v / 64 < 32 := by omega
      simp only [encodeChar, ← hvdef, if_neg h1, if_pos h2, List.cons_append,
        List.nil_append, decodeCharNat]
      rw [if_neg (by omega), if_neg (by omega), if_pos (by omega)]
      congr 1
      congr 1
      omega
    · by_cases h3 : v < 65536
      · have hd : v / 4096 < 16 := by omega
        simp only [encodeChar, ← hvdef, if_neg h1, if_neg h2, if_pos h3,
          List.cons_append, List.nil_append, decodeCharNat]
        rw [if_neg (by omega), if_neg (by omega), if_neg (by omega), if_pos (by omega)]
        congr 1
        congr 1
        have e1 : v / 64 % 64 = v / 64 - v / 4096 * 64 := by omega
        omega
      · have hd : v / 262144 < 5 := by omega
        simp only [encodeChar, ← hvdef, if_neg h1, if_neg h2, if_neg h3,
          List.cons_append, List.nil_append, decodeCharNat]
        rw [if_neg (by omega), if_neg (by omega), if_neg (by omega), if_neg (by omega)]
        congr 1
        congr 1
        omega

theorem decodeToken_encode (t : Token) (r : List Nat) (h : t.wf = true) :
    decodeToken (encodeToken t ++ r) = some (t, r) := by
  cases t with
  | C c =>
    have h0 : decodeVarint ((0 : Nat) :: (encodeChar c ++ r)) = some (0, encodeChar c ++ r) := by
      simp [decodeVarint]
    simp [encodeToken, decodeToken, h0, decodeCharNat_encode c r]
  | Num n =>
    have hn : n < 18446744073709551616 := by
      simpa [Token.wf] using h
    have h1 : decodeVarint ((1 : Nat) :: (encodeVarint n ++ r)) = some (1, encodeVarint n ++ r) := by
      simp [decodeVarint]
    simp [encodeToken, decodeToken, h1, decodeVarint_encode n r hn]

theorem decodeTokensN_encode (ts : List Token) (r : List Nat)
    (h : ∀ t ∈ ts, t.wf = true) :
    decodeTokensN ts.length ((ts.map encodeToken).flatten ++ r) = some (ts, r) := by
  induction ts with
  | nil => simp [decodeTokensN]
  | cons t ts ih =>
    have ht : t.wf = true := h t (List.mem_cons_self t ts)
    have hts : ∀ u ∈ ts, u.wf = true := fun u hu => h u (List.mem_cons_of_mem t hu)
    simp only [List.map_cons, List.flatten_cons, List.length_cons, List.append_assoc,
      decodeTokensN, decodeToken_encode t _ ht, ih hts]
    rfl

theorem decodeTokens_encode (ts : List Token)
    (hlen : ts.length < 18446744073709551616)
    (h : ∀ t ∈ ts, t.wf = true) :
    decodeTokens (encodeTokens ts) = some ts := by
  have h1 : decodeTokensN ts.length ((ts.map encodeToken).flatten ++ []) = some (ts, []) :=
    decodeTokensN_encode ts [] h
  rw [List.append_nil] at h1
  simp [encodeTokens, decodeTokens, decodeVarint_encode ts.length _ hlen, h1]

/-- Injectivity of the pre-hash byte encoding on well-formed token
sequences: distinct contexts yield distinct encoded byte strings. -/
theorem encodeTokens_injective (a b : List Token)
    (hla : a.length < 18446744073709551616) (hlb : b.length < 18446744073709551616)
    (ha : ∀ t ∈ a, t.wf = true) (hb : ∀ t ∈ b, t.wf = true)
    (hne : a ≠ b) : encodeTokens a ≠ encodeTokens b := by
  intro hc
  apply hne
  have := decodeTokens_encode a hla ha
  rw [hc, decodeTokens_encode b hlb hb] at this
  exact (Option.some.injEq _ _ ▸ this.symm)

/-- Storage state: the redb table `token_hits`, a partial map from storage
key to frequency table.  `none` models a key that was never written. -/
def Stash := List Nat → Option TokenHits

/-- Freshly created store: no key was ever written. -/
def emptyStash : Stash := fun _ => none

/-- Rust `TokenStash::tokenize`: one `Token.C` per character of the input. -/
def tokenize (src : List Char) : List Token := src.map Token.C

/-- Rust `TokenStash::hash_tokens`: bincode-encode the token slice and
digest it.  The sha256 hex digest is modelled as the identity on the
encoded bytes (deterministic and collision-free per the specification),
so the storage key of a context is its encoded byte sequence. -/
def hash_tokens (src : List Token) : List Nat := encodeTokens src

/-- Rust `TokenStash::read_hits_from_file`: look the key up in the table,
returning an empty `TokenHits` when the key (or the table) is absent. -/
def read_hits_from_file (db : Stash) (hash : List Nat) : TokenHits :=
  match db hash with
  | some hits => hits
  | none => TokenHits.mk []

/-- Rust `TokenStash::write_hits_to_file`: insert the table under the key. -/
def write_hits_to_file (db : Stash) (hits : TokenHits) (hash : List Nat) : Stash :=
  fun h => if h = hash then some hits else db h

/-- Scan of `note_next_token`: increment the count of every entry whose
value equals `next` (the source loop carries no `break`). -/
def bumpAll (entries : List TokenEntry) (next : Token) : List TokenEntry :=
  entries.map (fun e => if e.value = next then TokenEntry.mk e.value (e.count + 1) else e)

/-- The `found` flag of the scan loops: some entry matches `next`. -/
def foundIn (entries : List TokenEntry) (next : Token) : Bool :=
  entries.any (fun e => e.value = next)

/-- Rust `TokenStash::note_next_token`: read the context's table, increment
the matching entry (pushing a fresh entry with count 1 when none matches)
and write the table back. -/
def note_next_token (db : Stash) (current : List Token) (next : Token) : Stash :=
  let hash := hash_tokens current
  let hits := read_hits_from_file db hash
  let entries :=
    if foundIn hits.entries next then bumpAll hits.entries next
    else hits.entries ++ [TokenEntry.mk next 1]
  write_hits_to_file db (TokenHits.mk entries) hash

/-- Rust `TokenStash::get_next_candidates`: the stored entries of the
context's table (empty when the context was never observed). -/
def get_next_candidates (db : Stash) (current : List Token) : List TokenEntry :=
  (read_hits_from_file db (hash_tokens current)).entries

/-- In-memory batch of `note_text`: the `HashMap<String, TokenHits>`. -/
def Batch := List Nat → Option TokenHits

/-- Fresh empty batch. -/
def emptyBatch : Batch := fun _ => none

/-- The `batch.entry(hash).or_insert_with(read_hits_from_file)` read: the
batched table if the key was touched, otherwise the table read from the
database. -/
def batchGet (db : Stash) (batch : Batch) (hash : List Nat) : TokenHits :=
  match batch hash with
  | some hits => hits
  | none => read_hits_from_file db hash

/-- Replace the batched table under one key. -/
def batchPut (batch : Batch) (hash : List Nat) (hits : TokenHits) : Batch :=
  fun h => if h = hash then some hits else batch h

/-- Final single-transaction write of `note_text`: every batched table is
inserted, all other keys keep their database value. -/
def commitBatch (db : Stash) (batch : Batch) : Stash :=
  fun h =>
    match batch h with
    | some hits => some hits
    | none => db h

/-- Scan-and-merge of the `note_text` inner loop, whose scan carries a
`break`: increment only the first matching entry, or push a fresh entry
with count 1 when none matches. -/
def bumpFirst : List TokenEntry → Token → List TokenEntry
  | [], _ => []
  | e :: es, next =>
    if e.value = next then TokenEntry.mk e.value (e.count + 1) :: es
    else e :: bumpFirst es next

/-- One frequency update of the `note_text` batch loop. -/
def batchNote (hits : TokenHits) (next : Token) : TokenHits :=
  if foundIn hits.entries next then TokenHits.mk (bumpFirst hits.entries next)
  else TokenHits.mk (hits.entries ++ [TokenEntry.mk next 1])

/-- Loop index pairs of `note_text`: `i` ranges over `2..n` (exclusive of
`n`), `j` over `0..context`, in source iteration order. -/
def notePairs (n context : Nat) : List (Nat × Nat) :=
  (List.range' 2 (n - 2)).flatMap (fun i => (List.range context).map (fun j => (i, j)))

/-- Body of the `note_text` double loop for one `(i, j)` pair, at
character granularity (valid for inputs whose characters are all
single-byte, where Rust byte indices coincide with character indices;
the byte-accurate variant is `noteTextStepByte` below).  The source
guards `i > 1 + j`, `start < end` and `tokenized.len() >= 1` are all
modelled. -/
def noteTextStep (db : Stash) (input : List Char) (batch : Batch) (p : Nat × Nat) : Batch :=
  if p.1 > 1 + p.2 then
    let start := p.1 - 2 - p.2
    if start < p.1 then
      let substring := (input.drop start).take (p.1 - start)
      let tokenized := tokenize substring
      if h : tokenized.length ≥ 1 then
        let current := tokenized.take (tokenized.length - 1)
        let next := tokenized.get ⟨tokenized.length - 1, by omega⟩
        let hash := hash_tokens current
        batchPut batch hash (batchNote (batchGet db batch hash) next)
      else batch
    else batch
  else batch

/-- Rust `TokenStash::note_text`: accumulate every sliding-window update
in the in-memory batch, then commit the batch in a single transaction. -/
def note_text (db : Stash) (input : List Char) (context : Nat) : Stash :=
  commitBatch db ((notePairs input.length context).foldl (noteTextStep db input) emptyBatch)

/-- Rust `TokenStash::predict_token`: tokenize the input slice and list
the successor candidates of that full token sequence. -/
def predict_token (db : Stash) (input : List Char) : List TokenEntry :=
  get_next_candidates db (tokenize input)

/-- Backoff search shared by `predict_all_string` and
`predict_all_string_return`: try `i = context - 1` down to `0`, skip `i`
unless `input.len() > i`, and stop at the first suffix slice
`input[input.len() - 1 - i..]` whose candidate list is non-empty.
Returns the empty list when every tried context is empty. -/
def predict_backoff (db : Stash) (input : List Char) : Nat → List TokenEntry
  | 0 => []
  | i + 1 =>
    if input.length > i then
      let v := predict_token db (input.drop (input.length - 1 - i))
      if v.length > 0 then v else predict_backoff db input i
    else predict_backoff db input i

/-- Rust `TokenStash::predict_all_string_return`.  The thread-local RNG is
modelled by the draw stream `rnd` and the count `used` of draws consumed
so far; `rng.gen_range(0, v.len())` at the `k`-th consumed draw is
modelled as `rnd k % v.length`.  A drawn entry whose value is a `Num`
does not return: the source `if let Token::C(c)` falls through and the
loop continues with the next shorter context. -/
def predict_all_string_return (db : Stash) (input : List Char) (rnd : Nat → Nat) :
    Nat → Nat → Option Char × Nat
  | 0, used => (none, used)
  | i + 1, used =>
    if input.length > i then
      let v := predict_token db (input.drop (input.length - 1 - i))
      if h : v.length > 0 then
        match (v.get ⟨rnd used % v.length, Nat.mod_lt _ h⟩).value with
        | Token.C c => (some c, used + 1)
        | Token.Num _ => predict_all_string_return db input rnd i (used + 1)
      else predict_all_string_return db input rnd i used
    else predict_all_string_return db input rnd i used

/-- Rust `TokenStash::generate`: repeatedly predict from the growing
content and append the predicted character, stopping when prediction
yields nothing.  The source passes the literal `64` to
`predict_all_string_return`, ignoring its own `context` parameter.  The
source loop is unbounded; `fuel` bounds the number of modelled steps and
the returned list holds the generated characters (the printed output
minus the seed). -/
def generate (db : Stash) (context : Nat) (rnd : Nat → Nat) :
    List Char → Nat → Nat → List Char
  | _, _, 0 => []
  | input, used, fuel + 1 =>
    match predict_all_string_return db input rnd 64 used with
    | (some c, used1) => c :: generate db context rnd (input ++ [c]) used1 fuel
    | (none, _) => []

/-- Byte length of a string, as Rust `input.len()` measures a `&str`. -/
def utf8Len (s : List Char) : Nat := (s.map Char.utf8Size).sum

/-- Drop the first `n` bytes of a string.  `none` models the Rust slicing
panic: the byte index `n` is out of range or falls inside the UTF-8
encoding of a multi-byte character. -/
def dropBytes : List Char → Nat → Option (List Char)
  | s, 0 => some s
  | [], _ + 1 => none
  | c :: cs, n + 1 =>
    if c.utf8Size ≤ n + 1 then dropBytes cs (n + 1 - c.utf8Size) else none

/-- Take the first `n` bytes of a string, with the same panic model. -/
def takeBytes : List Char → Nat → Option (List Char)
  | _, 0 => some []
  | [], _ + 1 => none
  | c :: cs, n + 1 =>
    if c.utf8Size ≤ n + 1 then (takeBytes cs (n + 1 - c.utf8Size)).map (fun t => c :: t)
    else none

/-- Rust `&input[start..stop]` on byte indices: `none` is a panic. -/
def sliceBytes (s : List Char) (start stop : Nat) : Option (List Char) :=
  match dropBytes s start with
  | some t => takeBytes t (stop - start)
  | none => none

/-- Byte-accurate body of the `note_text` double loop for one `(i, j)`
pair: the window `[i - 2 - j, i)` is a byte range of the input, and a
range boundary inside a multi-byte character is a panic (`none`). -/
def noteTextStepByte (db : Stash) (input : List Char) (batch : Batch) (p : Nat × Nat) :
    Option Batch :=
  if p.1 > 1 + p.2 then
    let start := p.1 - 2 - p.2
    if start < p.1 then
      match sliceBytes input start p.1 with
      | some substring =>
        let tokenized := tokenize substring
        if h : tokenized.length ≥ 1 then
          let current := tokenized.take (tokenized.length - 1)
          let next := tokenized.get ⟨tokenized.length - 1, by omega⟩
          let hash := hash_tokens current
          some (batchPut batch hash (batchNote (batchGet db batch hash) next))
        else some batch
      | none => none
    else some batch
  else some batch

/-- Byte-accurate `note_text`: the loop bound is the byte length of the
input and each window is a byte slice; the whole run is a panic (`none`)
as soon as one slice boundary is invalid. -/
def noteTextByte (db : Stash) (input : List Char) (context : Nat) : Option Stash :=
  ((notePairs (utf8Len input) context).foldl
    (fun acc p => acc.bind (fun batch => noteTextStepByte db input batch p))
    (some emptyBatch)).map (commitBatch db)

/-- Byte-accurate `predict_all_string_return`: the suffix start
`input.len() - 1 - i` is a byte index, and a start inside a multi-byte
character is a panic (`none`). -/
def predictByte (db : Stash) (input : List Char) (rnd : Nat → Nat) :
    Nat → Nat → Option (Option Char × Nat)
  | 0, used => some (none, used)
  | i + 1, used =>
    if utf8Len input > i then
      match dropBytes input (utf8Len input - 1 - i) with
      | some suffix =>
        let v := predict_token db suffix
        if h : v.length > 0 then
          match (v.get ⟨rnd used % v.length, Nat.mod_lt _ h⟩).value with
          | Token.C c => some (some c, used + 1)
          | Token.Num _ => predictByte db input rnd i (used + 1)
        else predictByte db input rnd i used
      | none => none
    else predictByte db input rnd i used

/-- Values (successor symbols) listed by a frequency table. -/
def valsOf (es : List TokenEntry) : List Token := es.map TokenEntry.value

/-- Table invariant: at most one record per distinct symbol value. -/
def NoDupVals (es : List TokenEntry) : Prop := (valsOf es).Nodup

/-- Store invariant: every readable table satisfies `NoDupVals`. -/
def StashInv (db : Stash) : Prop :=
  ∀ h : List Nat, NoDupVals (read_hits_from_file db h).entries

/-- Total count recorded for one symbol in a table. -/
def countOf : List TokenEntry → Token → Nat
  | [], _ => 0
  | e :: es, t => (if e.value = t then e.count else 0) + countOf es t

/-- Number of records carrying one symbol in a table. -/
def matchCount : List TokenEntry → Token → Nat
  | [], _ => 0
  | e :: es, t => (if e.value = t then 1 else 0) + matchCount es t

theorem valsOf_bumpAll (es : List TokenEntry) (next : Token) :
    valsOf (bumpAll es next) = valsOf es := by
  induction es with
  | nil => rfl
  | cons e es ih =>
    simp only [bumpAll, valsOf, List.map_cons] at ih ⊢
    by_cases h : e.value = next <;> simp [h, ih]

theorem foundIn_iff (es : List TokenEntry) (next : Token) :
    foundIn es next = true ↔ next ∈ valsOf es := by
  simp [foundIn, valsOf, List.any_eq_true, List.mem_map]

theorem read_write_same (db : Stash) (hits : TokenHits) (hash : List Nat) :
    read_hits_from_file (write_hits_to_file db hits hash) hash = hits := by
  simp [read_hits_from_file, write_hits_to_file]

theorem read_write_other (db : Stash) (hits : TokenHits) (hash h : List Nat)
    (hne : h ≠ hash) :
    read_hits_from_file (write_hits_to_file db hits hash) h = read_hits_from_file db h := by
  simp [read_hits_from_file, write_hits_to_file, hne]

theorem note_next_token_inv (db : Stash) (current : List Token) (next : Token)
    (hinv : StashInv db) : StashInv (note_next_token db current next) := by
  intro h
  by_cases hh : h = hash_tokens current
  · subst hh
    simp only [note_next_token, read_write_same]
    by_cases hf : foundIn (read_hits_from_file db (hash_tokens current)).entries next = true
    · simpa [NoDupVals, hf, valsOf_bumpAll] using hinv (hash_tokens current)
    · have hnm : next ∉ valsOf (read_hits_from_file db (hash_tokens current)).entries := by
        intro hc
        exact hf ((foundIn_iff _ _).mpr hc)
      have hnd := hinv (hash_tokens current)
      simp only [NoDupVals, valsOf, Bool.not_eq_true] at hnd ⊢
      simp only [hf, Bool.false_eq_true, if_false, List.map_append, List.map_cons,
        List.map_nil]
      rw [List.nodup_append]
      refine ⟨hnd, List.nodup_singleton _, ?_⟩
      intro a ha hb
      simp only [List.mem_singleton] at hb
      subst hb
      exact hnm ha
  · simpa [note_next_token, read_write_other db _ _ h hh] using hinv h

theorem countOf_cons (e : TokenEntry) (es : List TokenEntry) (t : Token) :
    countOf (e :: es) t = (if e.value = t then e.count else 0) + countOf es t := rfl

theorem matchCount_cons (e : TokenEntry) (es : List TokenEntry) (t : Token) :
    matchCount (e :: es) t = (if e.value = t then 1 else 0) + matchCount es t := rfl

theorem countOf_append (es fs : List TokenEntry) (t : Token) :
    countOf (es ++ fs) t = countOf es t + countOf fs t := by
  induction es with
  | nil => simp [countOf]
  | cons e es ih =>
    simp only [List.cons_append, countOf_cons, List.append_eq] at ih ⊢
    omega

theorem countOf_bumpAll_other (es : List TokenEntry) (next t : Token) (hne : t ≠ next) :
    countOf (bumpAll es next) t = countOf es t := by
  induction es with
  | nil => rfl
  | cons e es ih =>
    simp only [bumpAll, List.map_cons] at ih ⊢
    by_cases h : e.value = next
    · simp [countOf_cons, h, Ne.symm hne, ih]
    · simp [countOf_cons, h, ih]

theorem countOf_bumpAll_self (es : List TokenEntry) (next : Token) :
    countOf (bumpAll es next) next = countOf es next + matchCount es next := by
  induction es with
  | nil => rfl
  | cons e es ih =>
    simp only [bumpAll, List.map_cons] at ih ⊢
    by_cases h : e.value = next
    · simp [countOf_cons, matchCount_cons, h, ih]
      omega
    · simp [countOf_cons, matchCount_cons, h, ih]

theorem not_found_counts (es : List TokenEntry) (t : Token)
    (h : foundIn es t = false) : countOf es t = 0 ∧ matchCount es t = 0 := by
  induction es with
  | nil => exact ⟨rfl, rfl⟩
  | cons e es ih =>
    simp only [foundIn, List.any_cons, Bool.or_eq_false_iff, decide_eq_false_iff_not] at h
    rcases h with ⟨h1, h2⟩
    rcases ih (by simpa [foundIn] using h2) with ⟨hc, hm⟩
    simp [countOf, matchCount, h1, hc, hm]

theorem found_matchCount_one (es : List TokenEntry) (t : Token)
    (hnd : NoDupVals es) (hf : foundIn es t = true) : matchCount es t = 1 := by
  induction es with
  | nil => simp [foundIn] at hf
  | cons e es ih =>
    simp only [NoDupVals, valsOf, List.map_cons, List.nodup_cons] at hnd
    by_cases h : e.value = t
    · have hnotin : foundIn es t = false := by
        rw [Bool.eq_false_iff]
        intro hc
        exact hnd.1 (h ▸ (foundIn_iff es t).mp hc)
      rcases not_found_counts es t hnotin with ⟨_, hm⟩
      simp [matchCount, h, hm]
    · have hf2 : foundIn es t = true := by
        simp only [foundIn, List.any_cons, Bool.or_eq_true_iff, decide_eq_true_eq] at hf
        rcases hf with hv | hrest
        · exact absurd hv h
        · simpa [foundIn] using hrest
      simpa [matchCount, h] using ih hnd.2 hf2

theorem note_next_token_count (db : Stash) (current : List Token) (next : Token)
    (hnd : NoDupVals (read_hits_from_file db (hash_tokens current)).entries) :
    countOf (get_next_candidates (note_next_token db current next) current) next
      = countOf (get_next_candidates db current) next + 1
    ∧ ∀ t : Token, t ≠ next →
      countOf (get_next_candidates (note_next_token db current next) current) t
        = countOf (get_next_candidates db current) t := by
  have hread : get_next_candidates (note_next_token db current next) current
      = if foundIn (read_hits_from_file db (hash_tokens current)).entries next then
          bumpAll (read_hits_from_file db (hash_tokens current)).entries next
        else (read_hits_from_file db (hash_tokens current)).entries ++ [TokenEntry.mk next 1] := by
    simp only [get_next_candidates, note_next_token, read_write_same]
  by_cases hf : foundIn (read_hits_from_file db (hash_tokens current)).entries next = true
  · rw [hread, if_pos hf]
    constructor
    · rw [countOf_bumpAll_self, found_matchCount_one _ _ hnd hf]
      rfl
    · intro t ht
      exact countOf_bumpAll_other _ _ _ ht
  · rw [hread, if_neg hf]
    constructor
    · rw [countOf_append]
      simp [get_next_candidates, countOf]
    · intro t ht
      rw [countOf_append]
      simp [get_next_candidates, countOf, Ne.symm ht]

/-- Sequential application of `note_next_token` over a list of
`(context, next)` observations, in order. -/
def applyNotes (db : Stash) (obs : List (List Token × Token)) : Stash :=
  obs.foldl (fun s o => note_next_token s o.1 o.2) db

theorem emptyStash_inv : StashInv emptyStash := by
  intro h
  simp [read_hits_from_file, emptyStash, NoDupVals, valsOf]

theorem applyNotes_inv (obs : List (List Token × Token)) (db : Stash) (hinv : StashInv db) :
    StashInv (applyNotes db obs) := by
  induction obs generalizing db with
  | nil => exact hinv
  | cons o obs ih => exact ih _ (note_next_token_inv db o.1 o.2 hinv)

/-- C6: each `record_transition(context, symbol)` call (source:
`note_next_token`) increases that symbol's count in the context's table
by exactly one — creating the record at count 1 when the symbol was
never observed after that context — and leaves every other symbol's
count in that table unchanged.  The hypothesis is the table invariant
(at most one record per symbol, C7), which every store reachable by the
program satisfies. -/
theorem claim_C6_record_transition_count (db : Stash) (current : List Token) (next : Token)
    (hnd : NoDupVals (read_hits_from_file db (hash_tokens current)).entries) :
    countOf (get_next_candidates (note_next_token db current next) current) next
      = countOf (get_next_candidates db current) next + 1
    ∧ ∀ t : Token, t ≠ next →
      countOf (get_next_candidates (note_next_token db current next) current) t
        = countOf (get_next_candidates db current) t :=
  note_next_token_count db current next hnd

/-- Witness for C6 at a concrete input: recording `'b'` after context
`['a']` in the empty store takes the count of `'b'` from 0 to 1 and
leaves the count of `'c'` at 0. -/
theorem claim_C6_witness :
    countOf (get_next_candidates (note_next_token emptyStash [Token.C 'a'] (Token.C 'b'))
        [Token.C 'a']) (Token.C 'b')
      = countOf (get_next_candidates emptyStash [Token.C 'a']) (Token.C 'b') + 1
    ∧ countOf (get_next_candidates (note_next_token emptyStash [Token.C 'a'] (Token.C 'b'))
        [Token.C 'a']) (Token.C 'c')
      = countOf (get_next_candidates emptyStash [Token.C 'a']) (Token.C 'c') :=
  ⟨(claim_C6_record_transition_count emptyStash [Token.C 'a'] (Token.C 'b')
      (emptyStash_inv _)).1,
   (claim_C6_record_transition_count emptyStash [Token.C 'a'] (Token.C 'b')
      (emptyStash_inv _)).2 (Token.C 'c') (by decide)⟩

/-- C7: after any sequence of `record_transition` calls (source:
`note_next_token`) starting from an empty store, every context's
frequency table contains at most one record per distinct symbol value. -/
theorem claim_C7_unique_records (calls : List (List Token × Token)) :
    StashInv (applyNotes emptyStash calls) :=
  applyNotes_inv calls emptyStash emptyStash_inv

/-- C1: the claim says noting `"ab"` then `"ac"` (any max context length)
must record successors `b` and `c` for context `['a']`.  The code
disagrees: `note_text` iterates `i` over `2..input.len()` exclusive, so a
length-2 input contributes no window at all and the store stays empty —
the transition into the last character of an input is never recorded.
This theorem evaluates the code at the claim's failing input: the
successor table of `['a']` is empty, not the claimed two entries. -/
theorem claim_C1_code_eval (L : Nat) :
    get_next_candidates (note_text (note_text emptyStash ['a', 'b'] L) ['a', 'c'] L)
      [Token.C 'a'] = [] := rfl

/-- C2: the claim says noting `"aaaa"` (context length 32, as the CLI
passes) must record count 3 for the transition `a` after `['a']`.  The
code records only 2: the windows are `(i, j)` for `i` in `2..4`, so the
final `a` at position 3 is never the recorded `next` symbol.  This
theorem evaluates the code at the claim's failing input. -/
theorem claim_C2_code_eval :
    get_next_candidates (note_text emptyStash ['a', 'a', 'a', 'a'] 32) [Token.C 'a']
      = [TokenEntry.mk (Token.C 'a') 2] := by decide

/-- C8: the backend read of a key that was never written returns an empty
frequency table without failing (`read_hits_from_file` maps both the
missing-table and missing-key cases to the empty table), and
consequently the backoff prediction on an empty store returns the empty
table for every input string and every max context length. -/
theorem claim_C8_get_missing_empty :
    (∀ (db : Stash) (h : List Nat), db h = none → read_hits_from_file db h = TokenHits.mk [])
    ∧ (∀ (input : List Char) (L : Nat), predict_backoff emptyStash input L = []) := by
  constructor
  · intro db h hh
    simp [read_hits_from_file, hh]
  · intro input L
    induction L with
    | zero => rfl
    | succ L ih =>
      simp [predict_backoff, predict_token, get_next_candidates, read_hits_from_file,
        emptyStash, ih]

/-- Witness for C8 at concrete inputs: a concrete never-written key reads
back as the empty table, and prediction on the empty store from a
concrete input returns no candidates. -/
theorem claim_C8_witness :
    read_hits_from_file emptyStash (hash_tokens [Token.C 'a']) = TokenHits.mk []
    ∧ predict_backoff emptyStash ['x', 'y'] 5 = [] :=
  ⟨claim_C8_get_missing_empty.1 emptyStash _ rfl, claim_C8_get_missing_empty.2 ['x', 'y'] 5⟩

/-- C9: for two distinct well-formed contexts the pre-hash byte encodings
are distinct (the encoding is deterministic by construction and
injective by the decode round-trip), and recording a transition against
context `a` never changes the frequency table read back for context
`b`.  Well-formedness bounds `Num` payloads and sequence lengths by the
`u64`/`usize` ranges of the source. -/
theorem claim_C9_context_isolation (a b : List Token)
    (hla : a.length < 18446744073709551616) (hlb : b.length < 18446744073709551616)
    (hwa : ∀ t ∈ a, t.wf = true) (hwb : ∀ t ∈ b, t.wf = true) (hne : a ≠ b) :
    hash_tokens a ≠ hash_tokens b
    ∧ ∀ (db : Stash) (next : Token),
        get_next_candidates (note_next_token db a next) b = get_next_candidates db b := by
  have hh : hash_tokens a ≠ hash_tokens b := encodeTokens_injective a b hla hlb hwa hwb hne
  refine ⟨hh, ?_⟩
  intro db next
  simp only [get_next_candidates, note_next_token]
  rw [read_write_other db _ _ _ (Ne.symm hh)]

/-- Witness for C9 at concrete contexts `['a']` and `['b']`. -/
theorem claim_C9_witness :
    hash_tokens [Token.C 'a'] ≠ hash_tokens [Token.C 'b']
    ∧ get_next_candidates (note_next_token emptyStash [Token.C 'a'] (Token.C 'x'))
        [Token.C 'b'] = get_next_candidates emptyStash [Token.C 'b'] := by
  have h := claim_C9_context_isolation [Token.C 'a'] [Token.C 'b'] (by decide) (by decide)
    (by decide) (by decide) (by decide)
  exact ⟨h.1, h.2 emptyStash (Token.C 'x')⟩

/-- Predictor as worded by claim C4: try the suffix-context of length
`k` for `k = L - 1` down to `0` (whenever the input holds at least `k`
characters, i.e. `k < input.length + 1`; the length-`k` suffix is
`input.drop (input.length - k)`), returning the first non-empty stored
table. -/
def predictSpecClaim (db : Stash) (input : List Char) : Nat → List TokenEntry
  | 0 => []
  | k + 1 =>
    if k ≤ input.length then
      let v := get_next_candidates db (tokenize (input.drop (input.length - k)))
      if v.length > 0 then v else predictSpecClaim db input k
    else predictSpecClaim db input k

/-- Predictor as amended for C4: try the suffix-context of length `k + 1`
for `k = L - 1` down to `0` — i.e. suffix lengths `L` down to `1`, the
length-0 context is never consulted — skipping lengths exceeding the
input, and return the first non-empty stored table. -/
def predictSpecAmended (db : Stash) (input : List Char) : Nat → List TokenEntry
  | 0 => []
  | k + 1 =>
    if k < input.length then
      let v := get_next_candidates db (tokenize (input.drop (input.length - (k + 1))))
      if v.length > 0 then v else predictSpecAmended db input k
    else predictSpecAmended db input k

/-- Store refuting claim C4 as stated: only the length-1 context `['a']`
has recorded successors. -/
def dbC4 : Stash :=
  fun h =>
    if h = hash_tokens [Token.C 'a'] then some (TokenHits.mk [TokenEntry.mk (Token.C 'x') 1])
    else none

/-- Counterexample to C4 as stated: with max length 1 on input `"a"`, the
code's backoff returns the table of the length-1 context `['a']`, while
the claim's longest-first range `L-1 .. 0` only consults the length-0
context and returns the empty table. -/
theorem claim_C4_counterexample :
    predict_backoff dbC4 ['a'] 1 ≠ predictSpecClaim dbC4 ['a'] 1 := by decide

theorem predict_backoff_skip (db : Stash) (input : List Char) (L : Nat) (hL : 3 ≤ L)
    (hempty : ∀ k, 4 ≤ k → k ≤ L → k ≤ input.length →
      get_next_candidates db (tokenize (input.drop (input.length - k))) = []) :
    predict_backoff db input L = predict_backoff db input 3 := by
  induction L with
  | zero => omega
  | succ L ih =>
    rcases Nat.lt_or_ge L 3 with h3 | h3
    · have hL3 : L + 1 = 3 := by omega
      rw [hL3]
    · have hstep : predict_backoff db input (L + 1) = predict_backoff db input L := by
        simp only [predict_backoff, predict_token]
        by_cases hc : input.length > L
        · rw [if_pos hc]
          have hd : input.length - 1 - L = input.length - (L + 1) := by omega
          rw [hd, hempty (L + 1) (by omega) (by omega) (by omega)]
          simp
        · rw [if_neg hc]
      rw [hstep, ih h3 (fun k hk1 hk2 hk3 => hempty k hk1 (by omega) hk3)]

/-- C4 (amended): the backoff predictor tries the suffix-contexts of the
input from longest (length `L`, when the input is long enough) down to
shortest (length 1) — not `L - 1` down to 0 as the claim words it — and
returns the table of the first context with a non-empty stored table.
The claim's concrete backoff scenario holds as stated: when the length-3
suffix has recorded successors, every tried longer suffix has none, and
the max length is at least 3, the length-3 table is returned (whatever
the length-2 and length-1 tables hold). -/
theorem claim_C4_backoff (db : Stash) (input : List Char) (L : Nat) :
    predict_backoff db input L = predictSpecAmended db input L
    ∧ (3 ≤ L → 3 ≤ input.length →
        (∀ k, 4 ≤ k → k ≤ L → k ≤ input.length →
          get_next_candidates db (tokenize (input.drop (input.length - k))) = []) →
        get_next_candidates db (tokenize (input.drop (input.length - 3))) ≠ [] →
        predict_backoff db input L
          = get_next_candidates db (tokenize (input.drop (input.length - 3)))) := by
  constructor
  · induction L with
    | zero => rfl
    | succ L ih =>
      have hd : input.length - 1 - L = input.length - (L + 1) := by omega
      simp only [predict_backoff, predictSpecAmended, predict_token, hd, ih]
  · intro hL hlen hempty hne
    rw [predict_backoff_skip db input L hL hempty]
    have h3 : (3 : Nat) = 2 + 1 := rfl
    rw [h3]
    simp only [predict_backoff, predict_token]
    rw [if_pos (show input.length > 2 by omega)]
    have hd : input.length - 1 - 2 = input.length - 3 := by omega
    rw [hd, if_pos (by simpa [List.length_pos] using hne)]

/-- Store for the C4 witness: the length-3 context `"abc"` and the
length-1 context `"c"` have successors, the length-2 context `"bc"` has
none. -/
def dbC4w : Stash :=
  fun h =>
    if h = hash_tokens [Token.C 'a', Token.C 'b', Token.C 'c'] then
      some (TokenHits.mk [TokenEntry.mk (Token.C 'd') 1])
    else if h = hash_tokens [Token.C 'c'] then
      some (TokenHits.mk [TokenEntry.mk (Token.C 'e') 1])
    else none

/-- Witness for C4: on the concrete store `dbC4w` with max length 3 the
backoff returns the length-3 table. -/
theorem claim_C4_witness :
    predict_backoff dbC4w ['a', 'b', 'c'] 3
      = get_next_candidates dbC4w
          (tokenize ((['a', 'b', 'c'] : List Char).drop
            ((['a', 'b', 'c'] : List Char).length - 3))) :=
  (claim_C4_backoff dbC4w ['a', 'b', 'c'] 3).2 (by omega) (by decide)
    (fun k hk1 hk2 _ => absurd (Nat.le_trans hk1 hk2) (by omega)) (by decide)

/-- Generator as worded by claim C5: identical to the source `generate`
except that the prediction call receives the generator's own max context
length parameter instead of the source's literal `64`. -/
def generateSpec (db : Stash) (context : Nat) (rnd : Nat → Nat) :
    List Char → Nat → Nat → List Char
  | _, _, 0 => []
  | input, used, fuel + 1 =>
    match predict_all_string_return db input rnd context used with
    | (some c, used1) => c :: generateSpec db context rnd (input ++ [c]) used1 fuel
    | (none, _) => []

/-- Store refuting claim C5 as stated: only the length-2 context
`"ab"` has a recorded successor. -/
def dbC5 : Stash :=
  fun h =>
    if h = hash_tokens [Token.C 'a', Token.C 'b'] then
      some (TokenHits.mk [TokenEntry.mk (Token.C 'c') 1])
    else none

/-- Counterexample to C5 as stated: generating from seed `"ab"` with max
context length 1 produces `"c"` (the source predicts with the literal
64, finding the length-2 context), while the claim's generator — which
predicts with max context length 1 — produces nothing. -/
theorem claim_C5_counterexample :
    generate dbC5 1 (fun _ => 0) ['a', 'b'] 0 2
      ≠ generateSpec dbC5 1 (fun _ => 0) ['a', 'b'] 0 2 := by decide

/-- Stores with identical successor-symbol shapes behave identically
under generation, whatever their counts: counts never influence the
uniform-by-index selection. -/
def SameShape (db1 db2 : Stash) : Prop :=
  ∀ h : List Nat,
    valsOf (read_hits_from_file db1 h).entries = valsOf (read_hits_from_file db2 h).entries

theorem map_value_get (l1 l2 : List TokenEntry)
    (hv : l1.map TokenEntry.value = l2.map TokenEntry.value) (k1 k2 : Nat) (hk : k1 = k2)
    (h1 : k1 < l1.length) (h2 : k2 < l2.length) :
    (l1.get ⟨k1, h1⟩).value = (l2.get ⟨k2, h2⟩).value := by
  subst hk
  induction l1 generalizing l2 k1 with
  | nil => simp at h1
  | cons e l1 ih =>
    cases l2 with
    | nil => simp at h2
    | cons f l2 =>
      simp only [List.map_cons, List.cons.injEq] at hv
      cases k1 with
      | zero => simpa using hv.1
      | succ k =>
        have e1 : ((e :: l1).get ⟨k + 1, h1⟩) = l1.get ⟨k, by simpa using h1⟩ := rfl
        have e2 : ((f :: l2).get ⟨k + 1, h2⟩) = l2.get ⟨k, by simpa using h2⟩ := rfl
        rw [e1, e2]
        exact ih l2 hv.2 k _ _

theorem predict_same_shape (db1 db2 : Stash) (hs : SameShape db1 db2) (input : List Char)
    (rnd : Nat → Nat) : ∀ i used : Nat,
    predict_all_string_return db1 input rnd i used
      = predict_all_string_return db2 input rnd i used := by
  intro i
  induction i with
  | zero => intro used; rfl
  | succ i ih =>
    intro used
    simp only [predict_all_string_return]
    by_cases hc : input.length > i
    · rw [if_pos hc, if_pos hc]
      set v1 := predict_token db1 (input.drop (input.length - 1 - i)) with hv1
      set v2 := predict_token db2 (input.drop (input.length - 1 - i)) with hv2
      have hv : v1.map TokenEntry.value = v2.map TokenEntry.value := hs _
      have hlen : v1.length = v2.length := by simpa using congrArg List.length hv
      by_cases h1 : v1.length > 0
      · have h2 : v2.length > 0 := hlen ▸ h1
        rw [dif_pos h1, dif_pos h2]
        have hval : (v1.get ⟨rnd used % v1.length, Nat.mod_lt _ h1⟩).value
            = (v2.get ⟨rnd used % v2.length, Nat.mod_lt _ h2⟩).value :=
          map_value_get v1 v2 hv _ _ (by rw [hlen]) (Nat.mod_lt _ h1) (Nat.mod_lt _ h2)
        rw [hval]
        cases hx : (v2.get ⟨rnd used % v2.length, Nat.mod_lt _ h2⟩).value with
        | C c => rfl
        | Num n => exact ih (used + 1)
      · rw [dif_neg h1, dif_neg (fun hcon => h1 (hlen ▸ hcon))]
        exact ih used
    · rw [if_neg hc, if_neg hc]
      exact ih used

theorem generate_same_shape (db1 db2 : Stash) (hs : SameShape db1 db2) (ctx : Nat)
    (rnd : Nat → Nat) : ∀ (fuel : Nat) (input : List Char) (used : Nat),
    generate db1 ctx rnd input used fuel = generate db2 ctx rnd input used fuel := by
  intro fuel
  induction fuel with
  | zero => intro input used; rfl
  | succ fuel ih =>
    intro input used
    simp only [generate]
    rw [← predict_same_shape db1 db2 hs input rnd 64 used]
    rcases hp : predict_all_string_return db1 input rnd 64 used with ⟨oc, used1⟩
    cases oc with
    | some c => simp [ih]
    | none => rfl

theorem generate_ctx_irrelevant (db : Stash) (ctx ctx2 : Nat) (rnd : Nat → Nat) :
    ∀ (fuel : Nat) (input : List Char) (used : Nat),
    generate db ctx rnd input used fuel = generate db ctx2 rnd input used fuel := by
  intro fuel
  induction fuel with
  | zero => intro input used; rfl
  | succ fuel ih =>
    intro input used
    simp only [generate]
    rcases hp : predict_all_string_return db input rnd 64 used with ⟨oc, used1⟩
    cases oc with
    | some c => simp [ih]
    | none => rfl

theorem predict_none_of_no_candidates (db : Stash) (input : List Char) (rnd : Nat → Nat)
    (hnone : ∀ k : Nat, predict_token db (input.drop k) = []) :
    ∀ i used : Nat, predict_all_string_return db input rnd i used = (none, used) := by
  intro i
  induction i with
  | zero => intro used; rfl
  | succ i ih =>
    intro used
    simp only [predict_all_string_return]
    by_cases hc : input.length > i
    · rw [if_pos hc]
      rw [dif_neg (by simp [hnone (input.length - 1 - i)])]
      exact ih used
    · rw [if_neg hc]
      exact ih used

/-- C5 (amended): `generate` repeatedly predicts from the growing content
(seed plus all generated symbols) with max context length 64, ignoring
its own max-length parameter (the source hardcodes 64); at each
successful step it appends the predicted symbol and continues; the
record is selected purely by index, never by count (stores with
identical successor-symbol sequences but arbitrary counts generate
identically); and it terminates with the empty continuation the first
time prediction yields no candidate, in particular when the seed has no
recorded successors at any backoff length. -/
theorem claim_C5_generate :
    (∀ (db : Stash) (ctx ctx2 : Nat) (rnd : Nat → Nat) (input : List Char) (used fuel : Nat),
      generate db ctx rnd input used fuel = generate db ctx2 rnd input used fuel)
    ∧ (∀ (db : Stash) (ctx : Nat) (rnd : Nat → Nat) (input : List Char)
        (used fuel used1 : Nat) (c : Char),
        predict_all_string_return db input rnd 64 used = (some c, used1) →
        generate db ctx rnd input used (fuel + 1)
          = c :: generate db ctx rnd (input ++ [c]) used1 fuel)
    ∧ (∀ (db : Stash) (ctx : Nat) (rnd : Nat → Nat) (input : List Char) (used fuel : Nat),
        (predict_all_string_return db input rnd 64 used).1 = none →
        generate db ctx rnd input used fuel = [])
    ∧ (∀ db1 db2 : Stash, SameShape db1 db2 → ∀ (ctx : Nat) (rnd : Nat → Nat)
        (fuel : Nat) (input : List Char) (used : Nat),
        generate db1 ctx rnd input used fuel = generate db2 ctx rnd input used fuel)
    ∧ (∀ (db : Stash) (ctx : Nat) (rnd : Nat → Nat) (input : List Char) (used fuel : Nat),
        (∀ k : Nat, predict_token db (input.drop k) = []) →
        generate db ctx rnd input used fuel = []) := by
  refine ⟨?_, ?_, ?_, ?_, ?_⟩
  · intro db ctx ctx2 rnd input used fuel
    exact generate_ctx_irrelevant db ctx ctx2 rnd fuel input used
  · intro db ctx rnd input used fuel used1 c hp
    simp only [generate, hp]
  · intro db ctx rnd input used fuel hp
    cases fuel with
    | zero => rfl
    | succ fuel =>
      simp only [generate]
      rcases hpe : predict_all_string_return db input rnd 64 used with ⟨oc, u1⟩
      rw [hpe] at hp
      simp only at hp
      subst hp
      rfl
  · intro db1 db2 hs ctx rnd fuel input used
    exact generate_same_shape db1 db2 hs ctx rnd fuel input used
  · intro db ctx rnd input used fuel hnone
    cases fuel with
    | zero => rfl
    | succ fuel =>
      simp only [generate]
      rw [predict_none_of_no_candidates db input rnd hnone 64 used]

/-- Stores for the C5 witness: identical successor symbols for context
`['a']`, differing counts. -/
def dbC5a : Stash :=
  fun h =>
    if h = hash_tokens [Token.C 'a'] then some (TokenHits.mk [TokenEntry.mk (Token.C 'b') 1])
    else none

/-- Count-perturbed twin of `dbC5a`. -/
def dbC5b : Stash :=
  fun h =>
    if h = hash_tokens [Token.C 'a'] then some (TokenHits.mk [TokenEntry.mk (Token.C 'b') 7])
    else none

/-- Witness for C5: the count-independence and empty-seed conjuncts at
concrete inputs. -/
theorem claim_C5_witness :
    generate dbC5a 32 (fun _ => 0) ['a'] 0 3 = generate dbC5b 32 (fun _ => 0) ['a'] 0 3
    ∧ generate emptyStash 32 (fun _ => 0) ['q'] 0 5 = [] := by
  constructor
  · refine claim_C5_generate.2.2.2.1 dbC5a dbC5b ?_ 32 (fun _ => 0) 3 ['a'] 0
    intro h
    by_cases hh : h = hash_tokens [Token.C 'a']
    · subst hh
      decide
    · simp [dbC5a, dbC5b, read_hits_from_file, hh]
  · refine claim_C5_generate.2.2.2.2 emptyStash 32 (fun _ => 0) ['q'] 0 5 ?_
    intro k
    cases k with
    | zero => rfl
    | succ k =>
      simp [predict_token, get_next_candidates, read_hits_from_file, emptyStash,
        List.drop_succ_cons, List.drop_nil]

/-- Index set as worded by claim C3: pairs `(i, j)` with `2 ≤ i ≤ N - 1`
(the `i` range of the loop), `0 ≤ j ≤ L - 1` and `i > 1 + j`, in
iteration order. -/
def claimPairs (n L : Nat) : List (Nat × Nat) :=
  (notePairs n L).filter (fun p => 1 + p.2 < p.1)

/-- Observation recorded for pair `(i, j)` as worded by claim C3:
context = the symbols of the substring `[i - 2 - j, i)` minus its last
symbol, i.e. the `j + 1` symbols starting at `i - 2 - j`; next = the
symbol at position `i - 1` (the default of `getD` is never used for
in-range pairs). -/
def obsOf (input : List Char) (p : Nat × Nat) : List Token × Token :=
  (tokenize ((input.drop (p.1 - 2 - p.2)).take (p.2 + 1)),
   Token.C (input.getD (p.1 - 1) 'a'))

/-- All observations of one training run as worded by claim C3. -/
def observations (input : List Char) (L : Nat) : List (List Token × Token) :=
  (claimPairs input.length L).map (obsOf input)

theorem notePairs_mem (n L : Nat) (p : Nat × Nat) (hp : p ∈ notePairs n L) :
    2 ≤ p.1 ∧ p.1 < n ∧ p.2 < L := by
  simp only [notePairs, List.mem_flatMap, List.mem_map, List.mem_range,
    List.mem_range'_1] at hp
  rcases hp with ⟨i, hi, j, hj, rfl⟩
  exact ⟨hi.1, by omega, hj⟩

theorem commitBatch_batchPut (db : Stash) (batch : Batch) (hash : List Nat)
    (hits : TokenHits) :
    commitBatch db (batchPut batch hash hits)
      = write_hits_to_file (commitBatch db batch) hits hash := by
  funext h
  by_cases hh : h = hash
  · simp [commitBatch, batchPut, write_hits_to_file, hh]
  · simp [commitBatch, batchPut, write_hits_to_file, hh]

theorem batchGet_commitBatch (db : Stash) (batch : Batch) (hash : List Nat) :
    batchGet db batch hash = read_hits_from_file (commitBatch db batch) hash := by
  simp only [batchGet, read_hits_from_file, commitBatch]
  cases batch hash <;> rfl

theorem bumpAll_not_found (es : List TokenEntry) (next : Token)
    (h : next ∉ valsOf es) : bumpAll es next = es := by
  induction es with
  | nil => rfl
  | cons e es ih =>
    simp only [valsOf, List.map_cons, List.mem_cons, not_or] at h
    simp only [bumpAll, List.map_cons] at ih ⊢
    rw [if_neg (fun hc => h.1 hc.symm), ih h.2]

theorem bumpFirst_eq_bumpAll (es : List TokenEntry) (next : Token) (hnd : NoDupVals es) :
    bumpFirst es next = bumpAll es next := by
  induction es with
  | nil => rfl
  | cons e es ih =>
    simp only [NoDupVals, valsOf, List.map_cons, List.nodup_cons] at hnd
    have hb : bumpAll (e :: es) next
        = (if e.value = next then TokenEntry.mk e.value (e.count + 1) else e)
          :: bumpAll es next := rfl
    by_cases h : e.value = next
    · have hnm : next ∉ valsOf es := fun hc => hnd.1 (h ▸ hc)
      rw [hb, if_pos h, bumpAll_not_found es next hnm]
      simp only [bumpFirst, if_pos h]
    · rw [hb, if_neg h]
      simp only [bumpFirst, if_neg h]
      rw [ih hnd.2]

theorem commit_noteTextStep (db : Stash) (input : List Char) (batch : Batch) (p : Nat × Nat)
    (hlen : p.1 ≤ input.length) (hguard : 1 + p.2 < p.1)
    (hinv : StashInv (commitBatch db batch)) :
    commitBatch db (noteTextStep db input batch p)
      = note_next_token (commitBatch db batch) (obsOf input p).1 (obsOf input p).2 := by
  have h2 : 2 ≤ p.1 := by omega
  have hstart : p.1 - 2 - p.2 < p.1 := by omega
  have hsub : p.1 - (p.1 - 2 - p.2) = 2 + p.2 := by omega
  have htok :
      (tokenize ((input.drop (p.1 - 2 - p.2)).take (p.1 - (p.1 - 2 - p.2)))).length
        = 2 + p.2 := by
    simp only [tokenize, List.length_map, List.length_take, List.length_drop]
    omega
  have hge :
      (tokenize ((input.drop (p.1 - 2 - p.2)).take (p.1 - (p.1 - 2 - p.2)))).length ≥ 1 := by
    omega
  have hi1 : p.1 - 1 < input.length := by omega
  have hidx : p.1 - 2 - p.2 + (p.2 + 1) = p.1 - 1 := by omega
  have hcur :
      (tokenize ((input.drop (p.1 - 2 - p.2)).take (p.1 - (p.1 - 2 - p.2)))).take
        ((tokenize ((input.drop (p.1 - 2 - p.2)).take (p.1 - (p.1 - 2 - p.2)))).length - 1)
        = (obsOf input p).1 := by
    rw [htok]
    simp only [tokenize, obsOf, ← List.map_take, List.take_take]
    have hmin : min (2 + p.2 - 1) (p.1 - (p.1 - 2 - p.2)) = p.2 + 1 := by omega
    rw [hmin]
  have hnext : ∀ hpf,
      (tokenize ((input.drop (p.1 - 2 - p.2)).take (p.1 - (p.1 - 2 - p.2)))).get
        ⟨(tokenize ((input.drop (p.1 - 2 - p.2)).take (p.1 - (p.1 - 2 - p.2)))).length - 1,
          hpf⟩
        = (obsOf input p).2 := by
    intro hpf
    have hj1 :
        (tokenize ((input.drop (p.1 - 2 - p.2)).take (p.1 - (p.1 - 2 - p.2)))).length - 1
          = p.2 + 1 := by
      omega
    simp only [List.get_eq_getElem, hj1, tokenize, List.getElem_map, List.getElem_take,
      List.getElem_drop, hidx, obsOf]
    simp only [List.getD_eq_getElem?_getD, List.getElem?_eq_getElem hi1, Option.getD_some,
      Token.C.injEq]
    simp only [tokenize, List.length_map, List.length_take, List.length_drop] at hj1 ⊢
    congr 1
    omega
  simp only [noteTextStep]
  rw [if_pos hguard, if_pos hstart, dif_pos hge]
  rw [hcur, hnext]
  rw [commitBatch_batchPut, batchGet_commitBatch]
  simp only [note_next_token, batchNote]
  by_cases hf :
      foundIn (read_hits_from_file (commitBatch db batch)
        (hash_tokens (obsOf input p).1)).entries (obsOf input p).2 = true
  · rw [if_pos hf, if_pos hf,
      bumpFirst_eq_bumpAll _ _ (hinv (hash_tokens (obsOf input p).1))]
  · rw [if_neg (by simpa using hf), if_neg (by simpa using hf)]

theorem commit_fold (db : Stash) (input : List Char) (pairs : List (Nat × Nat))
    (hmem : ∀ p ∈ pairs, p.1 ≤ input.length) :
    ∀ batch : Batch, StashInv (commitBatch db batch) →
    commitBatch db (pairs.foldl (noteTextStep db input) batch)
      = applyNotes (commitBatch db batch)
          ((pairs.filter (fun p => 1 + p.2 < p.1)).map (obsOf input)) := by
  induction pairs with
  | nil =>
    intro batch _
    rfl
  | cons p ps ih =>
    intro batch hinv
    by_cases hg : 1 + p.2 < p.1
    · have hstep := commit_noteTextStep db input batch p
        (hmem p (List.mem_cons_self p ps)) hg hinv
      have hinv2 : StashInv (commitBatch db (noteTextStep db input batch p)) := by
        rw [hstep]
        exact note_next_token_inv _ _ _ hinv
      rw [List.foldl_cons, List.filter_cons_of_pos (by simpa using hg), List.map_cons]
      rw [ih (fun q hq => hmem q (List.mem_cons_of_mem p hq)) _ hinv2, hstep]
      rfl
    · have hid : noteTextStep db input batch p = batch := by
        simp only [noteTextStep]
        rw [if_neg hg]
      rw [List.foldl_cons, List.filter_cons_of_neg (by simpa using hg), hid]
      exact ih (fun q hq => hmem q (List.mem_cons_of_mem p hq)) batch hinv

/-- C3: one training run of `note_text` on any store satisfying the table
invariant performs exactly the frequency updates worded by the claim —
one `record_transition` per pair `(i, j)` with `2 ≤ i ≤ N - 1`,
`0 ≤ j ≤ L - 1` and `i > 1 + j`, in loop order, whose context is the
substring `[i - 2 - j, i)` minus its last symbol and whose next symbol
is the one at position `i - 1` — and no others: the batched run equals
the sequential application of `note_next_token` over that observation
list. -/
theorem claim_C3_training_observations (db : Stash) (input : List Char) (L : Nat)
    (hinv : StashInv db) :
    note_text db input L = applyNotes db (observations input L) := by
  have hmem : ∀ p ∈ notePairs input.length L, p.1 ≤ input.length := by
    intro p hp
    have := notePairs_mem _ _ p hp
    omega
  have hbase : commitBatch db emptyBatch = db := by
    funext h
    rfl
  have h := commit_fold db input (notePairs input.length L) hmem emptyBatch
    (by rw [hbase]; exact hinv)
  rw [hbase] at h
  simpa [note_text, observations, claimPairs] using h

/-- Witness for C3 at a concrete input: training `"abc"` with max context
2 from the empty store equals sequentially recording the claim's
observation list. -/
theorem claim_C3_witness :
    note_text emptyStash ['a', 'b', 'c'] 2
      = applyNotes emptyStash (observations ['a', 'b', 'c'] 2) :=
  claim_C3_training_observations emptyStash ['a', 'b', 'c'] 2 emptyStash_inv

theorem ascii_utf8Len (s : List Char) (h : ∀ c ∈ s, c.utf8Size = 1) :
    utf8Len s = s.length := by
  induction s with
  | nil => rfl
  | cons c cs ih =>
    simp only [utf8Len, List.map_cons, List.sum_cons] at ih ⊢
    rw [h c (List.mem_cons_self c cs), ih (fun d hd => h d (List.mem_cons_of_mem c hd))]
    simp only [List.length_cons]
    omega

theorem ascii_dropBytes (s : List Char) (h : ∀ c ∈ s, c.utf8Size = 1) :
    ∀ n ≤ s.length, dropBytes s n = some (s.drop n) := by
  induction s with
  | nil =>
    intro n hn
    cases n with
    | zero => rfl
    | succ n => simp at hn
  | cons c cs ih =>
    intro n hn
    cases n with
    | zero => rfl
    | succ n =>
      have hc1 : c.utf8Size = 1 := h c (List.mem_cons_self c cs)
      simp only [dropBytes, hc1, if_pos (by omega : (1 : Nat) ≤ n + 1)]
      have : n + 1 - 1 = n := by omega
      rw [this, ih (fun d hd => h d (List.mem_cons_of_mem c hd)) n (by simpa using hn)]
      rfl

theorem ascii_takeBytes (s : List Char) (h : ∀ c ∈ s, c.utf8Size = 1) :
    ∀ n ≤ s.length, takeBytes s n = some (s.take n) := by
  induction s with
  | nil =>
    intro n hn
    cases n with
    | zero => rfl
    | succ n => simp at hn
  | cons c cs ih =>
    intro n hn
    cases n with
    | zero => rfl
    | succ n =>
      have hc1 : c.utf8Size = 1 := h c (List.mem_cons_self c cs)
      simp only [takeBytes, hc1, if_pos (by omega : (1 : Nat) ≤ n + 1)]
      have : n + 1 - 1 = n := by omega
      rw [this, ih (fun d hd => h d (List.mem_cons_of_mem c hd)) n (by simpa using hn)]
      rfl

theorem ascii_sliceBytes (s : List Char) (h : ∀ c ∈ s, c.utf8Size = 1) (start stop : Nat)
    (hstart : start ≤ s.length) (hstop : stop ≤ s.length) :
    sliceBytes s start stop = some ((s.drop start).take (stop - start)) := by
  simp only [sliceBytes]
  rw [ascii_dropBytes s h start hstart]
  exact ascii_takeBytes (s.drop start) (fun c hc => h c (List.mem_of_mem_drop hc))
    (stop - start) (by simp [List.length_drop]; omega)

theorem noteTextStepByte_ascii (db : Stash) (input : List Char)
    (h : ∀ c ∈ input, c.utf8Size = 1) (batch : Batch) (p : Nat × Nat)
    (hlen : p.1 ≤ input.length) :
    noteTextStepByte db input batch p = some (noteTextStep db input batch p) := by
  by_cases hg : 1 + p.2 < p.1
  · have hstart : p.1 - 2 - p.2 < p.1 := by omega
    simp only [noteTextStepByte, noteTextStep, if_pos hg, if_pos hstart]
    rw [ascii_sliceBytes input h _ _ (by omega) hlen]
    dsimp only
    by_cases hge :
        (tokenize ((input.drop (p.1 - 2 - p.2)).take (p.1 - (p.1 - 2 - p.2)))).length ≥ 1
    · rw [dif_pos hge, dif_pos hge]
    · rw [dif_neg hge, dif_neg hge]
  · simp only [noteTextStepByte, noteTextStep, if_neg hg]

theorem foldl_byte_ascii (db : Stash) (input : List Char)
    (h : ∀ c ∈ input, c.utf8Size = 1) (pairs : List (Nat × Nat))
    (hmem : ∀ p ∈ pairs, p.1 ≤ input.length) :
    ∀ batch : Batch,
    pairs.foldl (fun acc p => acc.bind (fun b => noteTextStepByte db input b p)) (some batch)
      = some (pairs.foldl (noteTextStep db input) batch) := by
  induction pairs with
  | nil =>
    intro batch
    rfl
  | cons p ps ih =>
    intro batch
    rw [List.foldl_cons, List.foldl_cons]
    have hb := noteTextStepByte_ascii db input h batch p (hmem p (List.mem_cons_self p ps))
    simp only [Option.some_bind, hb]
    exact ih (fun q hq => hmem q (List.mem_cons_of_mem p hq)) _

theorem noteTextByte_ascii (db : Stash) (input : List Char) (L : Nat)
    (h : ∀ c ∈ input, c.utf8Size = 1) :
    noteTextByte db input L = some (note_text db input L) := by
  have hulen := ascii_utf8Len input h
  have hmem : ∀ p ∈ notePairs input.length L, p.1 ≤ input.length := by
    intro p hp
    have := notePairs_mem _ _ p hp
    omega
  simp only [noteTextByte, note_text, hulen]
  rw [foldl_byte_ascii db input h _ hmem emptyBatch]
  rfl

theorem predictByte_ascii (db : Stash) (input : List Char) (rnd : Nat → Nat)
    (h : ∀ c ∈ input, c.utf8Size = 1) : ∀ i used : Nat,
    predictByte db input rnd i used
      = some (predict_all_string_return db input rnd i used) := by
  have hulen := ascii_utf8Len input h
  intro i
  induction i with
  | zero => intro used; rfl
  | succ i ih =>
    intro used
    simp only [predictByte, predict_all_string_return, hulen]
    by_cases hc : input.length > i
    · rw [if_pos hc, if_pos hc]
      rw [ascii_dropBytes input h _ (by omega)]
      dsimp only
      by_cases h1 : (predict_token db (input.drop (input.length - 1 - i))).length > 0
      · rw [dif_pos h1, dif_pos h1]
        cases hx : ((predict_token db (input.drop (input.length - 1 - i))).get
            ⟨rnd used % (predict_token db (input.drop (input.length - 1 - i))).length,
              Nat.mod_lt _ h1⟩).value with
        | C c => rfl
        | Num n => exact ih (used + 1)
      · rw [dif_neg h1, dif_neg h1]
        exact ih used
    · rw [if_neg hc, if_neg hc]
      exact ih used

theorem foldl_bind_none (db : Stash) (input : List Char) (pairs : List (Nat × Nat)) :
    pairs.foldl (fun acc p => acc.bind (fun batch => noteTextStepByte db input batch p)) none
      = none := by
  induction pairs with
  | nil => rfl
  | cons p ps ih => simpa using ih

theorem noteTextStepByte_slice (db : Stash) (input : List Char) (batch : Batch)
    (p : Nat × Nat) (hg : 1 + p.2 < p.1)
    (hsome : (noteTextStepByte db input batch p).isSome) :
    (sliceBytes input (p.1 - 2 - p.2) p.1).isSome := by
  have hstart : p.1 - 2 - p.2 < p.1 := by omega
  simp only [noteTextStepByte, if_pos hg, if_pos hstart] at hsome
  rcases hslice : sliceBytes input (p.1 - 2 - p.2) p.1 with _ | sub
  · rw [hslice] at hsome
    simp at hsome
  · simp

theorem foldl_byte_slices (db : Stash) (input : List Char) (pairs : List (Nat × Nat)) :
    ∀ acc : Option Batch,
    ((pairs.foldl (fun acc p => acc.bind (fun batch => noteTextStepByte db input batch p))
      acc).isSome) →
    ∀ p ∈ pairs, 1 + p.2 < p.1 → (sliceBytes input (p.1 - 2 - p.2) p.1).isSome := by
  induction pairs with
  | nil =>
    intro acc _ p hp
    simp at hp
  | cons q ps ih =>
    intro acc hsome p hp hg
    rw [List.foldl_cons] at hsome
    have hq : (acc.bind (fun batch => noteTextStepByte db input batch q)).isSome := by
      by_contra hc
      rw [Option.not_isSome_iff_eq_none] at hc
      rw [hc, foldl_bind_none] at hsome
      simp at hsome
    rcases List.mem_cons.mp hp with rfl | hp2
    · rcases hacc : acc with _ | b
      · rw [hacc] at hq
        simp at hq
      · rw [hacc] at hq
        simp only [Option.some_bind] at hq
        exact noteTextStepByte_slice db input b p hg hq
    · exact ih _ hsome p hp2 hg

/-- C10: the sliding-window loops index the input by bytes, not
characters.  For inputs whose characters are all single-byte the byte
indices coincide with character indices and both noting and prediction
are total (they equal the character-level model); whenever a window
boundary used by `note_text` falls inside a multi-byte character the run
panics (`none`), witnessed by the concrete inputs of the last two
conjuncts, and a successful run certifies that every used boundary was
valid. -/
theorem claim_C10_byte_indexing :
    (∀ (db : Stash) (input : List Char) (L : Nat), (∀ c ∈ input, c.utf8Size = 1) →
      noteTextByte db input L = some (note_text db input L))
    ∧ (∀ (db : Stash) (input : List Char) (rnd : Nat → Nat) (i used : Nat),
        (∀ c ∈ input, c.utf8Size = 1) →
        predictByte db input rnd i used
          = some (predict_all_string_return db input rnd i used))
    ∧ (∀ (db : Stash) (input : List Char) (L : Nat),
        (noteTextByte db input L).isSome →
        ∀ p ∈ notePairs (utf8Len input) L, 1 + p.2 < p.1 →
          (sliceBytes input (p.1 - 2 - p.2) p.1).isSome)
    ∧ noteTextByte emptyStash ['é', 'a', 'b'] 32 = none
    ∧ predictByte emptyStash ['é'] (fun _ => 0) 32 0 = none := by
  refine ⟨?_, ?_, ?_, ?_, ?_⟩
  · intro db input L h
    exact noteTextByte_ascii db input L h
  · intro db input rnd i used h
    exact predictByte_ascii db input rnd h i used
  · intro db input L hsome p hp hg
    have hfold :
        ((notePairs (utf8Len input) L).foldl
          (fun acc p => acc.bind (fun batch => noteTextStepByte db input batch p))
          (some emptyBatch)).isSome := by
      by_contra hc
      rw [Option.not_isSome_iff_eq_none] at hc
      rw [noteTextByte, hc] at hsome
      simp at hsome
    exact foldl_byte_slices db input (notePairs (utf8Len input) L) (some emptyBatch)
      hfold p hp hg
  · rfl
  · rfl

/-- Witness for C10: on concrete all-single-byte inputs the byte-indexed
noting and prediction both succeed and agree with the character-level
model. -/
theorem claim_C10_witness :
    noteTextByte emptyStash ['a', 'b', 'c'] 32
      = some (note_text emptyStash ['a', 'b', 'c'] 32)
    ∧ predictByte emptyStash ['a'] (fun _ => 0) 4 0
      = some (predict_all_string_return emptyStash ['a'] (fun _ => 0) 4 0) :=
  ⟨claim_C10_byte_indexing.1 emptyStash ['a', 'b', 'c'] 32 (by decide),
   claim_C10_byte_indexing.2.1 emptyStash ['a'] (fun _ => 0) 4 0 (by decide)⟩
